import Mathlib

/-!
Verification of the chunk-construction pipeline of the GitGist repository
(`apps/api/src/services/simpleChunker.ts`), shallowly embedded in Lean 4.

The data model follows `astParser.ts` (`FunctionInfo`, `ImportInfo`,
`ExportInfo`, `ASTSummary`, `FileAnalysis`) and `simpleChunker.ts`
(`SimpleChunk`, `ChunkOptions`, `chunk`, `chunkAll`, `combineSmallChunks`,
`splitLargeChunks`).  Strings are Lean `String`s, string concatenation and
`Array.prototype.join` are modelled by `++` and `joinSep`, and
`String.prototype.split` by `String.splitOn`.
-/

/-- JavaScript array `join(sep)`: empty list gives `""`, singleton gives
the element, otherwise elements interleaved with the separator. -/
def joinSep (sep : String) : List String → String
  | [] => ""
  | [x] => x
  | x :: y :: xs => x ++ sep ++ joinSep sep (y :: xs)

/-- Models `FunctionInfo` of `astParser.ts`. -/
structure FunctionInfo where
  name : String
  params : List String
  calls : List String
  isAsync : Bool
  isExported : Bool
  deriving DecidableEq, Repr

/-- Models `ImportInfo` of `astParser.ts`. -/
structure ImportInfo where
  source : String
  imports : List String
  isDefault : Bool
  isNamespace : Bool
  deriving DecidableEq, Repr

/-- The string-union `type` field of `ExportInfo`. -/
inductive ExportKind where
  | func
  | variab
  | cls
  | interf
  | typ
  deriving DecidableEq, Repr

/-- The literal string value an `ExportKind` stands for in `astParser.ts`. -/
def ExportKind.str : ExportKind → String
  | .func => "function"
  | .variab => "variable"
  | .cls => "class"
  | .interf => "interface"
  | .typ => "type"

/-- Models `ExportInfo` of `astParser.ts`. -/
structure ExportInfo where
  name : String
  isDefault : Bool
  type : ExportKind
  deriving DecidableEq, Repr

/-- Models `ASTSummary` of `astParser.ts`; `vars` models its `variables` array
(`variables` is a reserved word in Lean). -/
structure ASTSummary where
  functions : List FunctionInfo
  imports : List ImportInfo
  exports : List ExportInfo
  classes : List String
  vars : List String
  deriving DecidableEq, Repr

/-- Models `FileAnalysis` of `astParser.ts`. -/
structure FileAnalysis where
  file : String
  ast_summary : ASTSummary
  deriving DecidableEq, Repr

/-- The string-union `type` field of `SimpleChunk` in `simpleChunker.ts`:
`function | import | export | class | variable | summary`. -/
inductive ChunkType where
  | func
  | imp
  | expo
  | cls
  | variab
  | summary
  deriving DecidableEq, Repr

/-- Models `SimpleChunk` of `simpleChunker.ts`; the optional `name` field is an
`Option`. -/
structure SimpleChunk where
  id : String
  text : String
  type : ChunkType
  file : String
  name : Option String
  deriving DecidableEq, Repr

/-- Models `ChunkOptions` of `simpleChunker.ts`; both fields optional. -/
structure ChunkOptions where
  maxSize : Option Nat := none
  combine : Option Bool := none
  deriving DecidableEq, Repr

/-- Resolved `maxSize` of the spread `\x7b ...DEFAULT_OPTIONS, ...options \x7d`, default 500. -/
def ChunkOptions.maxSizeD (o : ChunkOptions) : Nat := o.maxSize.getD 500

/-- Resolved `combine` of the spread `\x7b ...DEFAULT_OPTIONS, ...options \x7d`, default true. -/
def ChunkOptions.combineD (o : ChunkOptions) : Bool := o.combine.getD true

/-- The chunk pushed for one function entry (`simpleChunker.ts` lines 33-41). -/
def functionChunk (file : String) (fn : FunctionInfo) : SimpleChunk :=
  { id := file ++ "::" ++ fn.name
    text := "Function: " ++ fn.name ++ "\nParams: " ++ joinSep ", " fn.params
      ++ "\nCalls: " ++ joinSep ", " fn.calls
    type := ChunkType.func
    file := file
    name := some fn.name }

/-- The single import chunk (`simpleChunker.ts` lines 44-49). -/
def importChunk (file : String) (imports : List ImportInfo) : SimpleChunk :=
  { id := file ++ "::" ++ "imports"
    text := "Imports:\n"
      ++ joinSep "\n" (imports.map fun imp =>
          "from " ++ imp.source ++ ": " ++ joinSep ", " imp.imports)
    type := ChunkType.imp
    file := file
    name := none }

/-- The single export chunk (`simpleChunker.ts` lines 52-57). -/
def exportChunk (file : String) (exports : List ExportInfo) : SimpleChunk :=
  { id := file ++ "::" ++ "exports"
    text := "Exports:\n"
      ++ joinSep "\n" (exports.map fun exp =>
          exp.type.str ++ ": " ++ exp.name ++ (if exp.isDefault then " (default)" else ""))
    type := ChunkType.expo
    file := file
    name := none }

/-- The chunk pushed for one class name (`simpleChunker.ts` line 61). -/
def classChunk (file : String) (className : String) : SimpleChunk :=
  { id := file ++ "::" ++ className
    text := "Class: " ++ className
    type := ChunkType.cls
    file := file
    name := some className }

/-- The single variables chunk (`simpleChunker.ts` line 66). -/
def variableChunk (file : String) (vars : List String) : SimpleChunk :=
  { id := file ++ "::" ++ "variables"
    text := "Variables: " ++ joinSep ", " vars
    type := ChunkType.variab
    file := file
    name := none }

/-- The fallback summary chunk (`simpleChunker.ts` lines 71-76). -/
def summaryChunk (file : String) (s : ASTSummary) : SimpleChunk :=
  { id := file ++ "::" ++ "summary"
    text := "File: " ++ file
      ++ "\nFunctions: " ++ toString s.functions.length
      ++ "\nImports: " ++ toString s.imports.length
      ++ "\nExports: " ++ toString s.exports.length
    type := ChunkType.summary
    file := file
    name := none }

/-- The per-category pushes of `chunk` (`simpleChunker.ts` lines 29-67), in
source order: functions, imports, exports, classes, variables. -/
def baseChunks (analysis : FileAnalysis) : List SimpleChunk :=
  let file := analysis.file
  let s := analysis.ast_summary
  s.functions.map (functionChunk file)
    ++ (if 0 < s.imports.length then [importChunk file s.imports] else [])
    ++ (if 0 < s.exports.length then [exportChunk file s.exports] else [])
    ++ s.classes.map (classChunk file)
    ++ (if 0 < s.vars.length then [variableChunk file s.vars] else [])

/-- The chunk list of `chunk` before the optional merge pass: the per-category
chunks, or the fallback summary chunk when they are empty
(`simpleChunker.ts` lines 69-77). -/
def buildChunks (analysis : FileAnalysis) : List SimpleChunk :=
  let cs := baseChunks analysis
  if cs.length = 0 then [summaryChunk analysis.file analysis.ast_summary] else cs

/-- The loop of `combineSmallChunks` (`simpleChunker.ts` lines 96-109):
`current` is the running chunk, the list is the remaining `chunks[i..]`. -/
def combineLoop (maxSize : Nat) : SimpleChunk → List SimpleChunk → List SimpleChunk
  | current, [] => [current]
  | current, next :: rest =>
    let combinedText := current.text ++ "\n\n" ++ next.text
    if combinedText.length ≤ maxSize then
      combineLoop maxSize
        { id := current.id ++ "+" ++ next.id
          text := combinedText
          type := current.type
          file := current.file
          name := none } rest
    else
      current :: combineLoop maxSize next rest

/-- Models `combineSmallChunks` of `simpleChunker.ts` (lines 92-111). -/
def combineSmallChunks (chunks : List SimpleChunk) (maxSize : Nat) : List SimpleChunk :=
  match chunks with
  | [] => []
  | [c] => [c]
  | c :: rest => combineLoop maxSize c rest

/-- Models `chunk` of `simpleChunker.ts` (lines 27-80). -/
def chunk (analysis : FileAnalysis) (options : ChunkOptions) : List SimpleChunk :=
  let chunks := buildChunks analysis
  if options.combineD then combineSmallChunks chunks options.maxSizeD else chunks

/-- Models `chunkAll` of `simpleChunker.ts` (lines 85-87). -/
def chunkAll (analyses : List FileAnalysis) (options : ChunkOptions) : List SimpleChunk :=
  analyses.flatMap fun analysis => chunk analysis options

/-- The inner accumulation loop of `splitLargeChunks`
(`simpleChunker.ts` lines 126-142), over the remaining lines, the running
`currentText` and the part counter. -/
def splitLoop (c : SimpleChunk) (maxSize : Nat) :
    List String → String → Nat → List SimpleChunk
  | [], currentText, part =>
    if currentText ≠ "" then
      [{ c with id := c.id ++ "#" ++ toString part, text := currentText }]
    else []
  | line :: rest, currentText, part =>
    let nextText := currentText ++ (if currentText ≠ "" then "\n" else "") ++ line
    if maxSize < nextText.length ∧ currentText ≠ "" then
      { c with id := c.id ++ "#" ++ toString part, text := currentText }
        :: splitLoop c maxSize rest line (part + 1)
    else
      splitLoop c maxSize rest nextText part

/-- Splitting a character list at every newline: JavaScript
`text.split("\n")` at character level. -/
def splitNl : List Char → List (List Char)
  | [] => [[]]
  | c :: cs =>
    if c = '\n' then [] :: splitNl cs
    else
      match splitNl cs with
      | [] => [[c]]
      | h :: t => (c :: h) :: t

/-- The newline-delimited lines of a string: `text.split("\n")` of
JavaScript. -/
def splitLines (s : String) : List String :=
  (splitNl s.data).map fun l => ⟨l⟩

/-- Models `splitLargeChunks` of `simpleChunker.ts` (lines 116-146). -/
def splitLargeChunks (chunks : List SimpleChunk) (maxSize : Nat) : List SimpleChunk :=
  chunks.flatMap fun c =>
    if c.text.length ≤ maxSize then [c]
    else splitLoop c maxSize (splitLines c.text) "" 1

/-- Splitting a character list at every occurrence of the character `+`:
the recovery operation the spec uses to read the constituent ids back out of
a `+`-joined merged id (JavaScript `id.split("+")`, at character level). -/
def splitPlus : List Char → List (List Char)
  | [] => [[]]
  | c :: cs =>
    if c = '+' then [] :: splitPlus cs
    else
      match splitPlus cs with
      | [] => [[c]]
      | h :: t => (c :: h) :: t

/-- The local id suffixes (the parts after the `"<file>::"` prefix) of the
per-category chunks of one file, in emission order. -/
def localIds (s : ASTSummary) : List String :=
  s.functions.map FunctionInfo.name
    ++ (if 0 < s.imports.length then ["imports"] else [])
    ++ (if 0 < s.exports.length then ["exports"] else [])
    ++ s.classes
    ++ (if 0 < s.vars.length then ["variables"] else [])

/-- The local id suffixes actually emitted for one file, accounting for the
fallback summary chunk. -/
def effectiveIds (s : ASTSummary) : List String :=
  if localIds s = [] then ["summary"] else localIds s

/-- An `ASTSummary` with every category empty. -/
def emptySummary : ASTSummary := ⟨[], [], [], [], []⟩

/-- Option record that disables the merge pass. -/
def noCombine : ChunkOptions := ⟨none, some false⟩

/-- A sample analysis: one function and one class. -/
def sampleAnalysis : FileAnalysis :=
  ⟨"src/a.ts", ⟨[⟨"f", ["a", "b"], ["g"], false, false⟩], [], [], ["C"], []⟩⟩

/-- An analysis whose two functions share the name `f`. -/
def dupFnAnalysis : FileAnalysis :=
  ⟨"a.ts", ⟨[⟨"f", [], [], false, false⟩, ⟨"f", [], [], false, false⟩], [], [], [], []⟩⟩

/-- One async, exported function `f`. -/
def asyncAnalysis : FileAnalysis :=
  ⟨"a.ts", ⟨[⟨"f", [], [], true, true⟩], [], [], [], []⟩⟩

/-- The same function `f`, neither async nor exported. -/
def syncAnalysis : FileAnalysis :=
  ⟨"a.ts", ⟨[⟨"f", [], [], false, false⟩], [], [], [], []⟩⟩

/-- A chunk whose id already contains the `+` character. -/
def plusIdChunk : SimpleChunk := ⟨"a+b", "text", ChunkType.func, "f.ts", none⟩

/-- An output chunk of the merge loop that is longer than `maxSize` is either
the incoming running chunk or one of the remaining input chunks. -/
theorem combineLoop_oversized (maxSize : Nat) :
    ∀ (rest : List SimpleChunk) (current c : SimpleChunk),
      c ∈ combineLoop maxSize current rest → maxSize < c.text.length →
      c = current ∨ c ∈ rest := by
  intro rest
  induction rest with
  | nil =>
    intro current c hc _
    simp only [combineLoop, List.mem_singleton] at hc
    exact Or.inl hc
  | cons next tl ih =>
    intro current c hc hlen
    simp only [combineLoop] at hc
    split at hc
    case isTrue h =>
      rcases ih _ c hc hlen with h1 | h1
      · subst h1
        simp only at hlen
        omega
      · exact Or.inr (List.mem_cons_of_mem _ h1)
    case isFalse h =>
      rcases List.mem_cons.mp hc with h1 | h1
      · exact Or.inl h1
      · rcases ih next c h1 hlen with h2 | h2
        · exact Or.inr (h2 ▸ List.mem_cons_self next tl)
        · exact Or.inr (List.mem_cons_of_mem _ h2)

/-- C3: every chunk in the output of the merge pass whose text length exceeds
`maxSize` is an unmerged input chunk (so its text already exceeded `maxSize`
before the pass); every other output chunk satisfies the bound. -/
theorem combineSmallChunks_size_bound (chunks : List SimpleChunk) (maxSize : Nat) :
    ∀ c ∈ combineSmallChunks chunks maxSize,
      c.text.length ≤ maxSize ∨ (c ∈ chunks ∧ maxSize < c.text.length) := by
  intro c hc
  by_cases hlen : maxSize < c.text.length
  · refine Or.inr ⟨?_, hlen⟩
    match chunks, hc with
    | [c0], hc =>
      simp only [combineSmallChunks, List.mem_singleton] at hc
      simp [hc]
    | c0 :: c1 :: rest, hc =>
      simp only [combineSmallChunks] at hc
      rcases combineLoop_oversized maxSize _ _ _ hc hlen with h | h
      · simp [h]
      · exact List.mem_cons_of_mem _ h
  · exact Or.inl (by omega)

/-- Witness for C3 at a concrete oversized chunk. -/
theorem combineSmallChunks_size_bound_witness :
    (⟨"a", "abcde", ChunkType.func, "f.ts", none⟩ : SimpleChunk).text.length ≤ 3 ∨
      ((⟨"a", "abcde", ChunkType.func, "f.ts", none⟩ : SimpleChunk) ∈
          [(⟨"a", "abcde", ChunkType.func, "f.ts", none⟩ : SimpleChunk)] ∧
        3 < (⟨"a", "abcde", ChunkType.func, "f.ts", none⟩ : SimpleChunk).text.length) :=
  combineSmallChunks_size_bound
    [⟨"a", "abcde", ChunkType.func, "f.ts", none⟩] 3
    ⟨"a", "abcde", ChunkType.func, "f.ts", none⟩ (by decide)

/-- On a nonempty list, `combineSmallChunks` is the loop started at the head. -/
theorem combineSmallChunks_cons (c : SimpleChunk) (cs : List SimpleChunk)
    (maxSize : Nat) :
    combineSmallChunks (c :: cs) maxSize = combineLoop maxSize c cs := by
  cases cs <;> rfl

/-- C6: when the merge pass combines the running chunk with the next chunk
(because the joined text fits in `maxSize`), the replacement chunk has
id `current.id + "+" + next.id`, the joined text, current's type, the file
unchanged, and no name field. -/
theorem combineSmallChunks_merge_step (current next : SimpleChunk)
    (rest : List SimpleChunk) (maxSize : Nat)
    (h : (current.text ++ "\n\n" ++ next.text).length ≤ maxSize) :
    combineSmallChunks (current :: next :: rest) maxSize =
      combineSmallChunks
        ({ id := current.id ++ "+" ++ next.id
           text := current.text ++ "\n\n" ++ next.text
           type := current.type
           file := current.file
           name := none } :: rest) maxSize := by
  rw [combineSmallChunks_cons, combineSmallChunks_cons]
  simp only [combineLoop]
  split
  case isTrue => rfl
  case isFalse hF => exact absurd h hF

/-- Witness for C6 at two concrete small chunks. -/
theorem combineSmallChunks_merge_step_witness :
    combineSmallChunks
        [⟨"a", "x", ChunkType.func, "f.ts", none⟩,
          ⟨"b", "y", ChunkType.cls, "f.ts", some "n"⟩] 10 =
      combineSmallChunks
        [{ id := (⟨"a", "x", ChunkType.func, "f.ts", none⟩ : SimpleChunk).id ++ "+" ++
              (⟨"b", "y", ChunkType.cls, "f.ts", some "n"⟩ : SimpleChunk).id
           text := (⟨"a", "x", ChunkType.func, "f.ts", none⟩ : SimpleChunk).text ++ "\n\n" ++
              (⟨"b", "y", ChunkType.cls, "f.ts", some "n"⟩ : SimpleChunk).text
           type := ChunkType.func
           file := "f.ts"
           name := none }] 10 :=
  combineSmallChunks_merge_step
    ⟨"a", "x", ChunkType.func, "f.ts", none⟩
    ⟨"b", "y", ChunkType.cls, "f.ts", some "n"⟩ [] 10 (by decide)

/-- The function `splitPlus` never returns the empty list. -/
theorem splitPlus_ne_nil : ∀ l : List Char, splitPlus l ≠ [] := by
  intro l
  cases l with
  | nil => simp [splitPlus]
  | cons c cs =>
    simp only [splitPlus]
    split
    · simp
    · split <;> simp

/-- Splitting a `+`-free character list returns it whole. -/
theorem splitPlus_no_plus : ∀ l : List Char, '+' ∉ l → splitPlus l = [l] := by
  intro l
  induction l with
  | nil => intro _; rfl
  | cons c cs ih =>
    intro h
    have hc : ¬ c = '+' := fun hcp => h (hcp ▸ List.mem_cons_self c cs)
    have hcs : '+' ∉ cs := fun hm => h (List.mem_cons_of_mem _ hm)
    simp only [splitPlus, if_neg hc, ih hcs]

/-- The function `splitPlus` distributes over a `+`-separated concatenation. -/
theorem splitPlus_append_plus :
    ∀ a b : List Char, splitPlus (a ++ '+' :: b) = splitPlus a ++ splitPlus b := by
  intro a b
  induction a with
  | nil => simp [splitPlus]
  | cons c cs ih =>
    by_cases hc : c = '+'
    · subst hc
      simp [splitPlus, ih]
    · rcases hnil : splitPlus cs with _ | ⟨h1, t1⟩
      · exact absurd hnil (splitPlus_ne_nil cs)
      · have h2 : splitPlus (cs ++ '+' :: b) = h1 :: (t1 ++ splitPlus b) := by
          rw [ih, hnil]
          simp
        simp only [List.cons_append, splitPlus, if_neg hc, List.append_eq, h2, hnil]

/-- The id of a merged chunk, at character level: the two ids joined by `+`. -/
theorem merged_id_data (x y : String) :
    (x ++ "+" ++ y).data = x.data ++ '+' :: y.data := by
  simp [String.data_append]

/-- Reading the merge loop's output ids back through `splitPlus` recovers the
running chunk's constituents followed by the remaining input ids in order. -/
theorem combineLoop_splitPlus (maxSize : Nat) :
    ∀ (rest : List SimpleChunk) (current : SimpleChunk),
      (∀ c ∈ rest, '+' ∉ c.id.data) →
      ((combineLoop maxSize current rest).map (fun c => splitPlus c.id.data)).flatten
        = splitPlus current.id.data ++ rest.map (fun c => c.id.data) := by
  intro rest
  induction rest with
  | nil =>
    intro current _
    simp [combineLoop]
  | cons next tl ih =>
    intro current hids
    have hnext : '+' ∉ next.id.data := hids next (List.mem_cons_self next tl)
    have htl : ∀ c ∈ tl, '+' ∉ c.id.data := fun c hc => hids c (List.mem_cons_of_mem _ hc)
    simp only [combineLoop]
    split
    · rw [ih _ htl]
      simp only [merged_id_data, splitPlus_append_plus, splitPlus_no_plus _ hnext]
      simp
    · simp only [List.map_cons, List.flatten_cons, ih next htl,
        splitPlus_no_plus _ hnext]
      simp

/-- C7 counterexample: on a chunk whose id already contains `+`, splitting the
output ids of the merge pass does not reconstruct the input id sequence. -/
theorem combineSmallChunks_order_counterexample :
    ((combineSmallChunks [plusIdChunk] 500).map (fun c => splitPlus c.id.data)).flatten
      ≠ [plusIdChunk].map (fun c => c.id.data) := by
  decide

/-- C7 (amended): provided no input id contains the `+` character,
concatenating, in output order, the `+`-split constituent ids of each merge
pass output chunk yields exactly the input id sequence, with no reordering,
duplication, or loss. -/
theorem combineSmallChunks_order (chunks : List SimpleChunk) (maxSize : Nat)
    (hids : ∀ c ∈ chunks, '+' ∉ c.id.data) :
    ((combineSmallChunks chunks maxSize).map (fun c => splitPlus c.id.data)).flatten
      = chunks.map (fun c => c.id.data) := by
  match chunks with
  | [] => simp [combineSmallChunks]
  | [c] =>
    simp [combineSmallChunks,
      splitPlus_no_plus _ (hids c (List.mem_cons_self c []))]
  | c :: c1 :: rest =>
    have hc : '+' ∉ c.id.data := hids c (List.mem_cons_self c _)
    have hrest : ∀ d ∈ c1 :: rest, '+' ∉ d.id.data :=
      fun d hd => hids d (List.mem_cons_of_mem _ hd)
    simp only [combineSmallChunks, combineLoop_splitPlus maxSize _ c hrest,
      splitPlus_no_plus _ hc]
    simp

/-- Witness for C7 at two concrete chunks that get merged. -/
theorem combineSmallChunks_order_witness :
    ((combineSmallChunks
          [⟨"a", "x", ChunkType.func, "f.ts", none⟩,
            ⟨"b", "y", ChunkType.cls, "f.ts", none⟩] 10).map
        (fun c => splitPlus c.id.data)).flatten
      = [⟨"a", "x", ChunkType.func, "f.ts", none⟩,
          (⟨"b", "y", ChunkType.cls, "f.ts", none⟩ : SimpleChunk)].map
          (fun c => c.id.data) :=
  combineSmallChunks_order
    [⟨"a", "x", ChunkType.func, "f.ts", none⟩,
      ⟨"b", "y", ChunkType.cls, "f.ts", none⟩] 10 (by decide)

/-- Membership in a conditional singleton list forces equality and the guard. -/
theorem mem_ite_singleton {α : Type} {p : Prop} [Decidable p] {x c : α}
    (h : c ∈ (if p then [x] else [])) : c = x ∧ p := by
  split at h
  case isTrue hp => exact ⟨List.mem_singleton.mp h, hp⟩
  case isFalse hp => simp at h

/-- No per-category chunk has type `summary`. -/
theorem baseChunks_type_ne_summary (a : FileAnalysis) :
    ∀ c ∈ baseChunks a, c.type ≠ ChunkType.summary := by
  intro c hc
  simp only [baseChunks, List.mem_append] at hc
  rcases hc with ((((hf | hi) | he) | hcl) | hv)
  · rcases List.mem_map.mp hf with ⟨fn, _, rfl⟩
    simp [functionChunk]
  · rcases mem_ite_singleton hi with ⟨rfl, _⟩
    simp [importChunk]
  · rcases mem_ite_singleton he with ⟨rfl, _⟩
    simp [exportChunk]
  · rcases List.mem_map.mp hcl with ⟨cl, _, rfl⟩
    simp [classChunk]
  · rcases mem_ite_singleton hv with ⟨rfl, _⟩
    simp [variableChunk]

/-- The per-category chunk list is empty exactly when every category is. -/
theorem baseChunks_eq_nil_iff (a : FileAnalysis) :
    baseChunks a = [] ↔
      (a.ast_summary.functions = [] ∧ a.ast_summary.imports = [] ∧
        a.ast_summary.exports = [] ∧ a.ast_summary.classes = [] ∧
        a.ast_summary.vars = []) := by
  simp only [baseChunks, List.append_eq_nil, List.map_eq_nil_iff]
  constructor
  · rintro ⟨⟨⟨⟨hf, hi⟩, he⟩, hcl⟩, hv⟩
    refine ⟨hf, ?_, ?_, hcl, ?_⟩
    · by_contra hne
      rw [if_pos (by simpa [List.length_pos] using hne)] at hi
      exact List.cons_ne_nil _ _ hi
    · by_contra hne
      rw [if_pos (by simpa [List.length_pos] using hne)] at he
      exact List.cons_ne_nil _ _ he
    · by_contra hne
      rw [if_pos (by simpa [List.length_pos] using hne)] at hv
      exact List.cons_ne_nil _ _ hv
  · rintro ⟨hf, hi, he, hcl, hv⟩
    simp [hf, hi, he, hcl, hv]

/-- The merge loop only produces chunk types drawn from its inputs. -/
theorem combineLoop_types (P : ChunkType → Prop) (maxSize : Nat) :
    ∀ (rest : List SimpleChunk) (current : SimpleChunk),
      P current.type → (∀ d ∈ rest, P d.type) →
      ∀ c ∈ combineLoop maxSize current rest, P c.type := by
  intro rest
  induction rest with
  | nil =>
    intro current hcur _ c hc
    simp only [combineLoop, List.mem_singleton] at hc
    exact hc ▸ hcur
  | cons next tl ih =>
    intro current hcur hrest c hc
    simp only [combineLoop] at hc
    split at hc
    · exact ih
        { id := current.id ++ "+" ++ next.id
          text := current.text ++ "\n\n" ++ next.text
          type := current.type
          file := current.file
          name := none } hcur
        (fun d hd => hrest d (List.mem_cons_of_mem _ hd)) c hc
    · rcases List.mem_cons.mp hc with rfl | hc2
      · exact hcur
      · exact ih next (hrest next (List.mem_cons_self next tl))
          (fun d hd => hrest d (List.mem_cons_of_mem _ hd)) c hc2

/-- The merge pass only produces chunk types drawn from its inputs. -/
theorem combineSmallChunks_types (P : ChunkType → Prop)
    (chunks : List SimpleChunk) (maxSize : Nat)
    (h : ∀ d ∈ chunks, P d.type) :
    ∀ c ∈ combineSmallChunks chunks maxSize, P c.type := by
  match chunks with
  | [] =>
    intro c hc
    simp [combineSmallChunks] at hc
  | [c0] =>
    intro c hc
    simp only [combineSmallChunks, List.mem_singleton] at hc
    exact hc ▸ h c0 (List.mem_cons_self c0 [])
  | c0 :: c1 :: rest =>
    intro c hc
    rw [combineSmallChunks_cons] at hc
    exact combineLoop_types P maxSize _ c0 (h c0 (List.mem_cons_self c0 _))
      (fun d hd => h d (List.mem_cons_of_mem _ hd)) c hc

/-- On a file with every category empty, `chunk` is the lone summary chunk. -/
theorem chunk_all_empty (a : FileAnalysis) (options : ChunkOptions)
    (hAll : a.ast_summary.functions = [] ∧ a.ast_summary.imports = [] ∧
      a.ast_summary.exports = [] ∧ a.ast_summary.classes = [] ∧
      a.ast_summary.vars = []) :
    chunk a options = [summaryChunk a.file a.ast_summary] := by
  have hb : buildChunks a = [summaryChunk a.file a.ast_summary] := by
    have hnil : baseChunks a = [] := (baseChunks_eq_nil_iff a).mpr hAll
    simp [buildChunks, hnil]
  cases hcb : options.combineD <;> simp [chunk, hb, hcb, combineSmallChunks]

/-- On a file with a nonempty category, no `chunk` output has type `summary`. -/
theorem chunk_no_summary (a : FileAnalysis) (options : ChunkOptions)
    (hne : baseChunks a ≠ []) :
    ∀ c ∈ chunk a options, c.type ≠ ChunkType.summary := by
  have hb : buildChunks a = baseChunks a := by
    have hlen : ¬ (baseChunks a).length = 0 := by
      simpa [List.length_eq_zero] using hne
    simp [buildChunks, hlen]
  intro c hc
  cases hcb : options.combineD <;> rw [chunk, hcb] at hc
  · simp only [if_neg Bool.false_ne_true, hb] at hc
    exact baseChunks_type_ne_summary a c hc
  · simp only [if_pos rfl, hb] at hc
    exact combineSmallChunks_types (fun t => t ≠ ChunkType.summary) _ _
      (baseChunks_type_ne_summary a) c hc

/-- C1: `chunk` emits a summary-type chunk exactly when the functions,
imports, exports, classes and variables lists are all empty, and in that case
the summary chunk is the only chunk produced for the file. -/
theorem chunk_summary_iff (a : FileAnalysis) (options : ChunkOptions) :
    ((∃ c ∈ chunk a options, c.type = ChunkType.summary) ↔
      (a.ast_summary.functions = [] ∧ a.ast_summary.imports = [] ∧
        a.ast_summary.exports = [] ∧ a.ast_summary.classes = [] ∧
        a.ast_summary.vars = [])) ∧
    ((∃ c ∈ chunk a options, c.type = ChunkType.summary) →
      (chunk a options).length = 1) := by
  have hmp : (∃ c ∈ chunk a options, c.type = ChunkType.summary) →
      (a.ast_summary.functions = [] ∧ a.ast_summary.imports = [] ∧
        a.ast_summary.exports = [] ∧ a.ast_summary.classes = [] ∧
        a.ast_summary.vars = []) := by
    rintro ⟨c, hc, hctype⟩
    by_cases hnil : baseChunks a = []
    · exact (baseChunks_eq_nil_iff a).mp hnil
    · exact absurd hctype (chunk_no_summary a options hnil c hc)
  refine ⟨⟨hmp, ?_⟩, ?_⟩
  · intro hAll
    refine ⟨summaryChunk a.file a.ast_summary, ?_, rfl⟩
    rw [chunk_all_empty a options hAll]
    exact List.mem_singleton.mpr rfl
  · intro hex
    rw [chunk_all_empty a options (hmp hex)]
    rfl

/-- Witness for C1 at a concrete file whose categories are all empty. -/
theorem chunk_summary_iff_witness :
    ∃ c ∈ chunk ⟨"e.ts", emptySummary⟩ ⟨none, none⟩,
      c.type = ChunkType.summary :=
  (chunk_summary_iff ⟨"e.ts", emptySummary⟩ ⟨none, none⟩).1.mpr (by decide)

/-- C10: for a fixed input pair, the chunk builder is deterministic: two runs
on equal inputs produce identical output lists, field by field. -/
theorem chunk_deterministic (a1 a2 : FileAnalysis) (o1 o2 : ChunkOptions)
    (ha : a1 = a2) (ho : o1 = o2) : chunk a1 o1 = chunk a2 o2 := by
  subst ha
  subst ho
  rfl

/-- Witness for C10 at a concrete input pair. -/
theorem chunk_deterministic_witness :
    chunk sampleAnalysis ⟨none, none⟩ = chunk sampleAnalysis ⟨none, none⟩ :=
  chunk_deterministic sampleAnalysis sampleAnalysis ⟨none, none⟩ ⟨none, none⟩ rfl rfl

/-- C8: the repository aggregator output is the concatenation, in input-list
order, of the per-file chunk sequences; for 3 files each producing 2 chunks
the output has length 6. -/
theorem chunkAll_concat (analyses : List FileAnalysis) (options : ChunkOptions) :
    chunkAll analyses options = (analyses.map fun a => chunk a options).flatten ∧
      (analyses.length = 3 → (∀ a ∈ analyses, (chunk a options).length = 2) →
        (chunkAll analyses options).length = 6) := by
  constructor
  · rw [chunkAll, List.flatMap_def]
  · intro h3 h2
    match analyses, h3 with
    | [a, b, c], _ =>
      have ha := h2 a (by simp)
      have hb := h2 b (by simp)
      have hc := h2 c (by simp)
      simp [chunkAll, ha, hb, hc]

/-- Witness for C8: three concrete files, two chunks each, merge disabled. -/
theorem chunkAll_concat_witness :
    (chunkAll
        [⟨"a.ts", ⟨[⟨"f", [], [], false, false⟩], [], [], ["A"], []⟩⟩,
          ⟨"b.ts", ⟨[⟨"g", [], [], false, false⟩], [], [], ["B"], []⟩⟩,
          ⟨"c.ts", ⟨[⟨"h", [], [], false, false⟩], [], [], ["C"], []⟩⟩]
        noCombine).length = 6 :=
  (chunkAll_concat
      [⟨"a.ts", ⟨[⟨"f", [], [], false, false⟩], [], [], ["A"], []⟩⟩,
        ⟨"b.ts", ⟨[⟨"g", [], [], false, false⟩], [], [], ["B"], []⟩⟩,
        ⟨"c.ts", ⟨[⟨"h", [], [], false, false⟩], [], [], ["C"], []⟩⟩]
      noCombine).2 (by decide) (by decide)

/-- C5 counterexample: the async and exported flags are not embedded in the
function chunk text: two analyses that differ only in those flags produce
byte-identical chunk output. -/
theorem chunk_function_flags_counterexample :
    chunk asyncAnalysis ⟨none, none⟩ = chunk syncAnalysis ⟨none, none⟩ ∧
      asyncAnalysis ≠ syncAnalysis := by
  constructor
  · decide
  · decide

/-- C5 (amended): with the merge pass disabled, the chunk builder emits, for
the function entries, one chunk per entry, in order, with
id `<file>::<functionName>`, name the function name, and text the
deterministic template embedding the name, the comma-joined parameter list
and the comma-joined call list (the async and exported flags do not appear). -/
theorem chunk_function_chunks (a : FileAnalysis) (options : ChunkOptions)
    (h : options.combine = some false) :
    (chunk a options).take a.ast_summary.functions.length =
      a.ast_summary.functions.map fun fn =>
        ({ id := a.file ++ "::" ++ fn.name
           text := "Function: " ++ fn.name ++ "\nParams: " ++ joinSep ", " fn.params
             ++ "\nCalls: " ++ joinSep ", " fn.calls
           type := ChunkType.func
           file := a.file
           name := some fn.name } : SimpleChunk) := by
  have hcb : options.combineD = false := by simp [ChunkOptions.combineD, h]
  rw [chunk]
  simp only [hcb, Bool.false_eq_true, if_false]
  cases hfn : a.ast_summary.functions with
  | nil => simp
  | cons f fs =>
    have hne : baseChunks a ≠ [] := by
      intro hnil
      have := ((baseChunks_eq_nil_iff a).mp hnil).1
      rw [hfn] at this
      exact List.cons_ne_nil _ _ this
    have hb : buildChunks a = baseChunks a := by
      have hlen : ¬ (baseChunks a).length = 0 := by
        simpa [List.length_eq_zero] using hne
      simp [buildChunks, hlen]
    rw [hb]
    simp only [baseChunks, List.append_assoc]
    rw [← hfn,
      ← List.length_map a.ast_summary.functions (functionChunk a.file),
      List.take_left]
    rfl

/-- Witness for C5 at a concrete analysis. -/
theorem chunk_function_chunks_witness :
    (chunk sampleAnalysis noCombine).take
        sampleAnalysis.ast_summary.functions.length =
      sampleAnalysis.ast_summary.functions.map fun fn =>
        ({ id := sampleAnalysis.file ++ "::" ++ fn.name
           text := "Function: " ++ fn.name ++ "\nParams: " ++ joinSep ", " fn.params
             ++ "\nCalls: " ++ joinSep ", " fn.calls
           type := ChunkType.func
           file := sampleAnalysis.file
           name := some fn.name } : SimpleChunk) :=
  chunk_function_chunks sampleAnalysis noCombine (by decide)

/-- Invariant of the split loop: every emitted part either fits in `maxSize`
or is one of the original lines of the chunk being split. -/
theorem splitLoop_bound (c : SimpleChunk) (maxSize : Nat) (lines0 : List String) :
    ∀ (lines : List String) (currentText : String) (part : Nat),
      (currentText = "" ∨ currentText.length ≤ maxSize ∨ currentText ∈ lines0) →
      (∀ l ∈ lines, l ∈ lines0) →
      ∀ d ∈ splitLoop c maxSize lines currentText part,
        d.text.length ≤ maxSize ∨ d.text ∈ lines0 := by
  intro lines
  induction lines with
  | nil =>
    intro currentText part hcur _ d hd
    simp only [splitLoop] at hd
    split at hd
    case isTrue hne =>
      have hdx := List.mem_singleton.mp hd
      subst hdx
      rcases hcur with h | h | h
      · exact absurd h hne
      · exact Or.inl h
      · exact Or.inr h
    case isFalse => simp at hd
  | cons line rest ih =>
    intro currentText part hcur hsub d hd
    simp only [splitLoop] at hd
    set nt := currentText ++ (if currentText ≠ "" then "\n" else "") ++ line with hnt
    split at hd
    case isTrue hcond =>
      rcases List.mem_cons.mp hd with hdx | hd2
      · subst hdx
        rcases hcur with h | h | h
        · exact absurd h hcond.2
        · exact Or.inl h
        · exact Or.inr h
      · exact ih line (part + 1)
          (Or.inr (Or.inr (hsub line (List.mem_cons_self line rest))))
          (fun l hl => hsub l (List.mem_cons_of_mem _ hl)) d hd2
    case isFalse hcond =>
      refine ih nt part ?_ (fun l hl => hsub l (List.mem_cons_of_mem _ hl)) d hd
      by_cases hemp : currentText = ""
      · right
        right
        have hline : nt = line := by
          rw [hnt, hemp, if_neg (fun hx => hx rfl)]
          rfl
        rw [hline]
        exact hsub line (List.mem_cons_self line rest)
      · have hle : ¬ maxSize < nt.length := fun hlt => hcond ⟨hlt, hemp⟩
        right
        left
        omega

/-- C4: for positive `maxSize`, every chunk emitted by the split pass whose
text exceeds `maxSize` has as text a single newline-delimited line of some
input chunk (accepted overflow); all other output chunks fit in `maxSize`. -/
theorem splitLargeChunks_bound (chunks : List SimpleChunk) (maxSize : Nat)
    (hpos : 0 < maxSize) :
    ∀ c ∈ splitLargeChunks chunks maxSize, maxSize < c.text.length →
      ∃ orig ∈ chunks, c.text ∈ splitLines orig.text := by
  intro c hc hlen
  rw [splitLargeChunks] at hc
  rcases List.mem_flatMap.mp hc with ⟨orig, horig, hin⟩
  split at hin
  case isTrue hsmall =>
    have hco := List.mem_singleton.mp hin
    subst hco
    omega
  case isFalse hbig =>
    rcases splitLoop_bound orig maxSize (splitLines orig.text)
        (splitLines orig.text) "" 1 (Or.inl rfl) (fun l hl => hl) c hin with
      h | h
    · omega
    · exact ⟨orig, horig, h⟩

/-- Witness for C4: splitting a 2-line chunk whose first line is oversized. -/
theorem splitLargeChunks_bound_witness :
    ∃ orig ∈ [(⟨"x", "aaaaaa\nbb", ChunkType.func, "f.ts", none⟩ : SimpleChunk)],
      (⟨"x#1", "aaaaaa", ChunkType.func, "f.ts", none⟩ : SimpleChunk).text
        ∈ splitLines orig.text :=
  splitLargeChunks_bound
    [⟨"x", "aaaaaa\nbb", ChunkType.func, "f.ts", none⟩] 3 (by decide)
    ⟨"x#1", "aaaaaa", ChunkType.func, "f.ts", none⟩ (by decide) (by decide)

/-- Any element of a joined list is an infix of the join, at character level. -/
theorem joinSep_mem_infix (sep : String) :
    ∀ (l : List String) (x : String), x ∈ l →
      List.IsInfix x.data (joinSep sep l).data := by
  intro l
  induction l with
  | nil =>
    intro x hx
    simp at hx
  | cons a as ih =>
    intro x hx
    cases as with
    | nil =>
      have hxa := List.mem_singleton.mp hx
      subst hxa
      exact List.infix_refl _
    | cons b bs =>
      rcases List.mem_cons.mp hx with hxa | hx2
      · subst hxa
        exact ⟨[], sep.data ++ (joinSep sep (b :: bs)).data, by
          simp [joinSep, String.data_append]⟩
      · have h2 := ih x hx2
        have h3 : List.IsInfix (joinSep sep (b :: bs)).data
            (joinSep sep (a :: b :: bs)).data :=
          ⟨(a ++ sep).data, [], by simp [joinSep, String.data_append]⟩
        exact h2.trans h3

/-- The function name is an infix of its chunk text. -/
theorem functionChunk_text_contains (file : String) (fn : FunctionInfo) :
    List.IsInfix fn.name.data (functionChunk file fn).text.data :=
  ⟨"Function: ".data,
    ("\nParams: " ++ joinSep ", " fn.params ++ "\nCalls: " ++ joinSep ", " fn.calls).data,
    by simp [functionChunk, String.data_append]⟩

/-- Every import source is an infix of the import chunk text. -/
theorem importChunk_text_contains (file : String) (imports : List ImportInfo)
    (imp : ImportInfo) (h : imp ∈ imports) :
    List.IsInfix imp.source.data (importChunk file imports).text.data := by
  have h1 : List.IsInfix imp.source.data
      ("from " ++ imp.source ++ ": " ++ joinSep ", " imp.imports).data :=
    ⟨"from ".data, (": " ++ joinSep ", " imp.imports).data,
      by simp [String.data_append]⟩
  have h2 := joinSep_mem_infix "\n"
    (imports.map fun i => "from " ++ i.source ++ ": " ++ joinSep ", " i.imports)
    ("from " ++ imp.source ++ ": " ++ joinSep ", " imp.imports)
    (List.mem_map_of_mem _ h)
  have h3 : List.IsInfix
      (joinSep "\n" (imports.map fun i =>
        "from " ++ i.source ++ ": " ++ joinSep ", " i.imports)).data
      (importChunk file imports).text.data :=
    ⟨"Imports:\n".data, [], by simp [importChunk, String.data_append]⟩
  exact h1.trans (h2.trans h3)

/-- Every export name is an infix of the export chunk text. -/
theorem exportChunk_text_contains (file : String) (exports : List ExportInfo)
    (exp : ExportInfo) (h : exp ∈ exports) :
    List.IsInfix exp.name.data (exportChunk file exports).text.data := by
  have h1 : List.IsInfix exp.name.data
      (exp.type.str ++ ": " ++ exp.name
        ++ (if exp.isDefault then " (default)" else "")).data :=
    ⟨(exp.type.str ++ ": ").data, (if exp.isDefault then " (default)" else "").data,
      by simp [String.data_append]⟩
  have h2 := joinSep_mem_infix "\n"
    (exports.map fun e =>
      e.type.str ++ ": " ++ e.name ++ (if e.isDefault then " (default)" else ""))
    (exp.type.str ++ ": " ++ exp.name ++ (if exp.isDefault then " (default)" else ""))
    (List.mem_map_of_mem _ h)
  have h3 : List.IsInfix
      (joinSep "\n" (exports.map fun e =>
        e.type.str ++ ": " ++ e.name
          ++ (if e.isDefault then " (default)" else ""))).data
      (exportChunk file exports).text.data :=
    ⟨"Exports:\n".data, [], by simp [exportChunk, String.data_append]⟩
  exact h1.trans (h2.trans h3)

/-- The class name is an infix of its chunk text. -/
theorem classChunk_text_contains (file : String) (className : String) :
    List.IsInfix className.data (classChunk file className).text.data :=
  ⟨"Class: ".data, [], by simp [classChunk, String.data_append]⟩

/-- Every variable name is an infix of the variables chunk text. -/
theorem variableChunk_text_contains (file : String) (vars : List String)
    (v : String) (h : v ∈ vars) :
    List.IsInfix v.data (variableChunk file vars).text.data := by
  have h2 := joinSep_mem_infix ", " vars v h
  have h3 : List.IsInfix (joinSep ", " vars).data
      (variableChunk file vars).text.data :=
    ⟨"Variables: ".data, [], by simp [variableChunk, String.data_append]⟩
  exact h2.trans h3

/-- Every input text of the merge loop survives as an infix of some output
text: both the running chunk's text and each remaining chunk's text. -/
theorem combineLoop_covers (maxSize : Nat) :
    ∀ (rest : List SimpleChunk) (current : SimpleChunk),
      (∃ d ∈ combineLoop maxSize current rest,
        List.IsInfix current.text.data d.text.data) ∧
      (∀ x ∈ rest, ∃ d ∈ combineLoop maxSize current rest,
        List.IsInfix x.text.data d.text.data) := by
  intro rest
  induction rest with
  | nil =>
    intro current
    refine ⟨⟨current, List.mem_singleton.mpr rfl, List.infix_refl _⟩, ?_⟩
    intro x hx
    simp at hx
  | cons next tl ih =>
    intro current
    by_cases hcond : (current.text ++ "\n\n" ++ next.text).length ≤ maxSize
    · have heq : combineLoop maxSize current (next :: tl) =
          combineLoop maxSize
            { id := current.id ++ "+" ++ next.id
              text := current.text ++ "\n\n" ++ next.text
              type := current.type
              file := current.file
              name := none } tl := by
        simp only [combineLoop]
        rw [if_pos hcond]
      rcases ih
          { id := current.id ++ "+" ++ next.id
            text := current.text ++ "\n\n" ++ next.text
            type := current.type
            file := current.file
            name := none } with ⟨⟨d, hd, hinf⟩, hall⟩
      rw [heq]
      have hcur : List.IsInfix current.text.data
          (current.text ++ "\n\n" ++ next.text).data :=
        ⟨[], ("\n\n" ++ next.text).data, by simp [String.data_append]⟩
      have hnext : List.IsInfix next.text.data
          (current.text ++ "\n\n" ++ next.text).data :=
        ⟨(current.text ++ "\n\n").data, [], by simp [String.data_append]⟩
      refine ⟨⟨d, hd, hcur.trans hinf⟩, ?_⟩
      intro x hx
      rcases List.mem_cons.mp hx with hxe | hx2
      · subst hxe
        exact ⟨d, hd, hnext.trans hinf⟩
      · exact hall x hx2
    · have heq : combineLoop maxSize current (next :: tl) =
          current :: combineLoop maxSize next tl := by
        simp only [combineLoop]
        rw [if_neg hcond]
      rw [heq]
      refine ⟨⟨current, List.mem_cons_self _ _, List.infix_refl _⟩, ?_⟩
      intro x hx
      rcases List.mem_cons.mp hx with hxe | hx2
      · subst hxe
        rcases (ih x).1 with ⟨d, hd, hinf⟩
        exact ⟨d, List.mem_cons_of_mem _ hd, hinf⟩
      · rcases (ih next).2 x hx2 with ⟨d, hd, hinf⟩
        exact ⟨d, List.mem_cons_of_mem _ hd, hinf⟩

/-- Every input text of the merge pass is an infix of some output text. -/
theorem combineSmallChunks_covers (chunks : List SimpleChunk) (maxSize : Nat) :
    ∀ x ∈ chunks, ∃ d ∈ combineSmallChunks chunks maxSize,
      List.IsInfix x.text.data d.text.data := by
  match chunks with
  | [] =>
    intro x hx
    simp at hx
  | [c] =>
    intro x hx
    have hxc := List.mem_singleton.mp hx
    subst hxc
    exact ⟨x, List.mem_singleton.mpr rfl, List.infix_refl _⟩
  | c :: c1 :: rest =>
    intro x hx
    rw [combineSmallChunks_cons]
    rcases List.mem_cons.mp hx with hxe | hx2
    · subst hxe
      exact (combineLoop_covers maxSize (c1 :: rest) x).1
    · exact (combineLoop_covers maxSize (c1 :: rest) c).2 x hx2

/-- When the per-category chunk list is nonempty it is the builder output. -/
theorem buildChunks_eq_base (a : FileAnalysis) (h : baseChunks a ≠ []) :
    buildChunks a = baseChunks a := by
  have hlen : ¬ (baseChunks a).length = 0 := by
    simpa [List.length_eq_zero] using h
  simp [buildChunks, hlen]

/-- Every pre-merge chunk text survives into `chunk` output as an infix. -/
theorem chunk_covers (a : FileAnalysis) (options : ChunkOptions) :
    ∀ x ∈ buildChunks a, ∃ d ∈ chunk a options,
      List.IsInfix x.text.data d.text.data := by
  intro x hx
  rw [chunk]
  cases hcb : options.combineD
  · simp only [hcb, Bool.false_eq_true, if_false]
    exact ⟨x, hx, List.infix_refl _⟩
  · simp only [hcb, if_true]
    exact combineSmallChunks_covers _ _ x hx

/-- A function entry's chunk is among the per-category chunks. -/
theorem functionChunk_mem_base (a : FileAnalysis) (fn : FunctionInfo)
    (h : fn ∈ a.ast_summary.functions) :
    functionChunk a.file fn ∈ baseChunks a := by
  simp only [baseChunks, List.mem_append]
  exact Or.inl (Or.inl (Or.inl (Or.inl (List.mem_map_of_mem _ h))))

/-- The import chunk is among the per-category chunks when imports exist. -/
theorem importChunk_mem_base (a : FileAnalysis)
    (h : a.ast_summary.imports ≠ []) :
    importChunk a.file a.ast_summary.imports ∈ baseChunks a := by
  simp only [baseChunks, List.mem_append]
  refine Or.inl (Or.inl (Or.inl (Or.inr ?_)))
  rw [if_pos (List.length_pos.mpr h)]
  exact List.mem_singleton.mpr rfl

/-- The export chunk is among the per-category chunks when exports exist. -/
theorem exportChunk_mem_base (a : FileAnalysis)
    (h : a.ast_summary.exports ≠ []) :
    exportChunk a.file a.ast_summary.exports ∈ baseChunks a := by
  simp only [baseChunks, List.mem_append]
  refine Or.inl (Or.inl (Or.inr ?_))
  rw [if_pos (List.length_pos.mpr h)]
  exact List.mem_singleton.mpr rfl

/-- A class name's chunk is among the per-category chunks. -/
theorem classChunk_mem_base (a : FileAnalysis) (className : String)
    (h : className ∈ a.ast_summary.classes) :
    classChunk a.file className ∈ baseChunks a := by
  simp only [baseChunks, List.mem_append]
  exact Or.inl (Or.inr (List.mem_map_of_mem _ h))

/-- The variables chunk is among the per-category chunks when variables
exist. -/
theorem variableChunk_mem_base (a : FileAnalysis)
    (h : a.ast_summary.vars ≠ []) :
    variableChunk a.file a.ast_summary.vars ∈ baseChunks a := by
  simp only [baseChunks, List.mem_append]
  refine Or.inr ?_
  rw [if_pos (List.length_pos.mpr h)]
  exact List.mem_singleton.mpr rfl

/-- C9: the union of the text fields of the chunks produced for a file
(after the merge pass when enabled) contains, as a substring, every function
name, import source, export name, class name, and variable name of the input
summary. -/
theorem chunk_completeness (a : FileAnalysis) (options : ChunkOptions) :
    (∀ fn ∈ a.ast_summary.functions,
        ∃ d ∈ chunk a options, List.IsInfix fn.name.data d.text.data) ∧
      (∀ imp ∈ a.ast_summary.imports,
        ∃ d ∈ chunk a options, List.IsInfix imp.source.data d.text.data) ∧
      (∀ exp ∈ a.ast_summary.exports,
        ∃ d ∈ chunk a options, List.IsInfix exp.name.data d.text.data) ∧
      (∀ cl ∈ a.ast_summary.classes,
        ∃ d ∈ chunk a options, List.IsInfix cl.data d.text.data) ∧
      (∀ v ∈ a.ast_summary.vars,
        ∃ d ∈ chunk a options, List.IsInfix v.data d.text.data) := by
  refine ⟨?_, ?_, ?_, ?_, ?_⟩
  · intro fn hfn
    have hne : baseChunks a ≠ [] := fun hnil => by
      have h0 := ((baseChunks_eq_nil_iff a).mp hnil).1
      rw [h0] at hfn
      simp at hfn
    have hmem : functionChunk a.file fn ∈ buildChunks a := by
      rw [buildChunks_eq_base a hne]
      exact functionChunk_mem_base a fn hfn
    rcases chunk_covers a options _ hmem with ⟨d, hd, hinf⟩
    exact ⟨d, hd, (functionChunk_text_contains a.file fn).trans hinf⟩
  · intro imp himp
    have hcat : a.ast_summary.imports ≠ [] := fun h0 => by
      rw [h0] at himp
      simp at himp
    have hne : baseChunks a ≠ [] := fun hnil =>
      hcat ((baseChunks_eq_nil_iff a).mp hnil).2.1
    have hmem : importChunk a.file a.ast_summary.imports ∈ buildChunks a := by
      rw [buildChunks_eq_base a hne]
      exact importChunk_mem_base a hcat
    rcases chunk_covers a options _ hmem with ⟨d, hd, hinf⟩
    exact ⟨d, hd, (importChunk_text_contains a.file _ imp himp).trans hinf⟩
  · intro exp hexp
    have hcat : a.ast_summary.exports ≠ [] := fun h0 => by
      rw [h0] at hexp
      simp at hexp
    have hne : baseChunks a ≠ [] := fun hnil =>
      hcat ((baseChunks_eq_nil_iff a).mp hnil).2.2.1
    have hmem : exportChunk a.file a.ast_summary.exports ∈ buildChunks a := by
      rw [buildChunks_eq_base a hne]
      exact exportChunk_mem_base a hcat
    rcases chunk_covers a options _ hmem with ⟨d, hd, hinf⟩
    exact ⟨d, hd, (exportChunk_text_contains a.file _ exp hexp).trans hinf⟩
  · intro cl hcl
    have hne : baseChunks a ≠ [] := fun hnil => by
      have h0 := ((baseChunks_eq_nil_iff a).mp hnil).2.2.2.1
      rw [h0] at hcl
      simp at hcl
    have hmem : classChunk a.file cl ∈ buildChunks a := by
      rw [buildChunks_eq_base a hne]
      exact classChunk_mem_base a cl hcl
    rcases chunk_covers a options _ hmem with ⟨d, hd, hinf⟩
    exact ⟨d, hd, (classChunk_text_contains a.file cl).trans hinf⟩
  · intro v hv
    have hcat : a.ast_summary.vars ≠ [] := fun h0 => by
      rw [h0] at hv
      simp at hv
    have hne : baseChunks a ≠ [] := fun hnil =>
      hcat ((baseChunks_eq_nil_iff a).mp hnil).2.2.2.2
    have hmem : variableChunk a.file a.ast_summary.vars ∈ buildChunks a := by
      rw [buildChunks_eq_base a hne]
      exact variableChunk_mem_base a hcat
    rcases chunk_covers a options _ hmem with ⟨d, hd, hinf⟩
    exact ⟨d, hd, (variableChunk_text_contains a.file _ v hv).trans hinf⟩

/-- Witness for C9: the function name of the sample analysis appears in some
output chunk text. -/
theorem chunk_completeness_witness :
    ∃ d ∈ chunk sampleAnalysis ⟨none, none⟩,
      List.IsInfix
        (⟨"f", ["a", "b"], ["g"], false, false⟩ : FunctionInfo).name.data
        d.text.data :=
  (chunk_completeness sampleAnalysis ⟨none, none⟩).1
    ⟨"f", ["a", "b"], ["g"], false, false⟩ (by decide)

/-- C2 counterexample: a file with two same-named functions (merge pass
disabled) yields two chunks with the same id within one aggregation run. -/
theorem chunkAll_ids_counterexample :
    ¬ ((chunkAll [dupFnAnalysis] noCombine).map SimpleChunk.id).Nodup := by
  decide

/-- The per-category chunk ids are the local id suffixes behind the
`"<file>::"` prefix. -/
theorem baseChunks_ids (a : FileAnalysis) :
    (baseChunks a).map SimpleChunk.id =
      (localIds a.ast_summary).map fun n => a.file ++ "::" ++ n := by
  simp only [baseChunks, localIds, List.map_append, List.map_map,
    apply_ite (List.map SimpleChunk.id),
    apply_ite (List.map fun n => a.file ++ "::" ++ n)]
  rfl

/-- Builder output ids are the effective local ids behind the file prefix. -/
theorem buildChunks_ids (a : FileAnalysis) :
    (buildChunks a).map SimpleChunk.id =
      (effectiveIds a.ast_summary).map fun n => a.file ++ "::" ++ n := by
  by_cases h : baseChunks a = []
  · have hloc : localIds a.ast_summary = [] := by
      have hb := baseChunks_ids a
      rw [h] at hb
      exact List.map_eq_nil_iff.mp hb.symm
    have hlen : (baseChunks a).length = 0 := by simp [h]
    simp only [buildChunks, hlen, if_pos]
    rw [effectiveIds, if_pos hloc]
    rfl
  · have hlocne : localIds a.ast_summary ≠ [] := by
      intro h0
      apply h
      have hb := baseChunks_ids a
      rw [h0] at hb
      exact List.map_eq_nil_iff.mp hb
    rw [buildChunks_eq_base a h, baseChunks_ids, effectiveIds, if_neg hlocne]

/-- Concatenation behind a colon-free prefix and a double colon is injective
at character level. -/
theorem noColon_append_inj :
    ∀ (f1 : List Char), ':' ∉ f1 → ∀ (f2 : List Char), ':' ∉ f2 →
      ∀ (n1 n2 : List Char),
        f1 ++ ':' :: ':' :: n1 = f2 ++ ':' :: ':' :: n2 → f1 = f2 ∧ n1 = n2 := by
  intro f1
  induction f1 with
  | nil =>
    intro _ f2 h2 n1 n2 heq
    cases f2 with
    | nil =>
      refine ⟨rfl, ?_⟩
      simpa using heq
    | cons d ds =>
      exfalso
      simp only [List.nil_append, List.cons_append] at heq
      have hd := (List.cons_eq_cons.mp heq).1
      refine h2 ?_
      rw [hd]
      exact List.mem_cons_self d ds
  | cons c cs ih =>
    intro h1 f2 h2 n1 n2 heq
    cases f2 with
    | nil =>
      exfalso
      simp only [List.nil_append, List.cons_append] at heq
      have hd := (List.cons_eq_cons.mp heq).1
      refine h1 ?_
      rw [← hd]
      exact List.mem_cons_self c cs
    | cons d ds =>
      simp only [List.cons_append] at heq
      obtain ⟨hcd, htl⟩ := List.cons_eq_cons.mp heq
      have h1x : ':' ∉ cs := fun hm => h1 (List.mem_cons_of_mem _ hm)
      have h2x : ':' ∉ ds := fun hm => h2 (List.mem_cons_of_mem _ hm)
      obtain ⟨hfs, hns⟩ := ih h1x ds h2x n1 n2 htl
      refine ⟨?_, hns⟩
      rw [hcd, hfs]

/-- An id `<file>::<suffix>` with a colon-free file determines the file and
the suffix. -/
theorem fileId_inj (f1 f2 n1 n2 : String)
    (h1 : ':' ∉ f1.data) (h2 : ':' ∉ f2.data)
    (heq : f1 ++ "::" ++ n1 = f2 ++ "::" ++ n2) : f1 = f2 ∧ n1 = n2 := by
  have hcc : ("::" : String).data = [':', ':'] := rfl
  have hd : f1.data ++ ':' :: ':' :: n1.data = f2.data ++ ':' :: ':' :: n2.data := by
    have hq := congrArg String.data heq
    simpa [String.data_append, hcc] using hq
  obtain ⟨ha, hb⟩ := noColon_append_inj f1.data h1 f2.data h2 n1.data n2.data hd
  exact ⟨String.ext ha, String.ext hb⟩

/-- Appending to a fixed prefix is injective on strings. -/
theorem string_append_left_cancel (p x y : String) (h : p ++ x = p ++ y) :
    x = y := by
  have hd : p.data ++ x.data = p.data ++ y.data := by
    have hq := congrArg String.data h
    simpa [String.data_append] using hq
  exact String.ext (List.append_cancel_left hd)

/-- The effective local ids are duplicate-free when the local ids are. -/
theorem effectiveIds_nodup (s : ASTSummary) (h : (localIds s).Nodup) :
    (effectiveIds s).Nodup := by
  rw [effectiveIds]
  split
  · simp
  · exact h

/-- Per-file chunk ids are distinct when the local id suffixes are (merge
pass disabled). -/
theorem chunk_ids_nodup (a : FileAnalysis) (options : ChunkOptions)
    (hcomb : options.combineD = false)
    (hloc : (localIds a.ast_summary).Nodup) :
    ((chunk a options).map SimpleChunk.id).Nodup := by
  rw [chunk]
  simp only [hcomb, Bool.false_eq_true, if_false]
  rw [buildChunks_ids]
  refine List.Nodup.map ?_ (effectiveIds_nodup _ hloc)
  intro x y hxy
  exact string_append_left_cancel (a.file ++ "::") x y hxy

/-- C2 (amended): with the merge pass disabled, pairwise-distinct colon-free
file paths, and pairwise-distinct local id suffixes within each file, no two
chunks of one aggregation run share an id. -/
theorem chunkAll_ids_nodup (analyses : List FileAnalysis)
    (options : ChunkOptions)
    (hcomb : options.combine = some false)
    (hloc : ∀ a ∈ analyses, (localIds a.ast_summary).Nodup)
    (hfiles : (analyses.map FileAnalysis.file).Nodup)
    (hcolon : ∀ a ∈ analyses, ':' ∉ a.file.data) :
    ((chunkAll analyses options).map SimpleChunk.id).Nodup := by
  have hcb : options.combineD = false := by
    simp [ChunkOptions.combineD, hcomb]
  rw [chunkAll, List.map_flatMap, List.nodup_flatMap]
  constructor
  · intro a ha
    exact chunk_ids_nodup a options hcb (hloc a ha)
  · have hpw : List.Pairwise (fun a b => a.file ≠ b.file) analyses :=
      List.pairwise_map.mp hfiles
    refine hpw.imp_of_mem ?_
    intro a b ha hb hne
    simp only [Function.onFun]
    intro x hxa hxb
    have hida : (chunk a options).map SimpleChunk.id =
        (effectiveIds a.ast_summary).map fun n => a.file ++ "::" ++ n := by
      rw [chunk]
      simp only [hcb, Bool.false_eq_true, if_false]
      exact buildChunks_ids a
    have hidb : (chunk b options).map SimpleChunk.id =
        (effectiveIds b.ast_summary).map fun n => b.file ++ "::" ++ n := by
      rw [chunk]
      simp only [hcb, Bool.false_eq_true, if_false]
      exact buildChunks_ids b
    rw [hida] at hxa
    rw [hidb] at hxb
    rcases List.mem_map.mp hxa with ⟨n1, -, hn1⟩
    rcases List.mem_map.mp hxb with ⟨n2, -, hn2⟩
    have heq : a.file ++ "::" ++ n1 = b.file ++ "::" ++ n2 := by
      rw [hn1, hn2]
    exact hne (fileId_inj a.file b.file n1 n2 (hcolon a ha) (hcolon b hb) heq).1

/-- Witness for the amended C2 at two concrete files. -/
theorem chunkAll_ids_nodup_witness :
    ((chunkAll
        [⟨"a.ts", ⟨[⟨"f", [], [], false, false⟩], [], [], ["C"], []⟩⟩,
          ⟨"b.ts", ⟨[⟨"g", [], [], false, false⟩], [], [], [], ["v"]⟩⟩]
        noCombine).map SimpleChunk.id).Nodup :=
  chunkAll_ids_nodup
    [⟨"a.ts", ⟨[⟨"f", [], [], false, false⟩], [], [], ["C"], []⟩⟩,
      ⟨"b.ts", ⟨[⟨"g", [], [], false, false⟩], [], [], [], ["v"]⟩⟩]
    noCombine (by decide) (by decide) (by decide) (by decide)
